import Mathlib

/-!
Verification of the `balanced.js` rotation library (`src/index.ts`).

The library mutates JavaScript objects in place, so we embed it with an
explicit heap: node identities are natural numbers, and a heap maps every
identity to a record holding the payload and the optional child links.
Each source function becomes a Lean function that threads the heap.
Observer callbacks may mutate balance metadata on nodes, so a callback is
embedded as an arbitrary heap transformer receiving the two node ids.
-/

set_option autoImplicit false

namespace Balanced

/-- Mirror of the source interface `RTNode<T>`: payload plus optional left
and right child references (node identities in the heap model). -/
structure RTNode (T : Type) where
  data : T
  left : Option Nat
  right : Option Nat
  deriving DecidableEq, Repr

/-- The mutable store of nodes: every node identity maps to a node record.
JavaScript object identity becomes the `Nat` index. -/
structure Heap (T : Type) where
  nodes : Nat → RTNode T

/-- Overwrite the node stored at identity `i`. -/
def Heap.update {T : Type} (h : Heap T) (i : Nat) (n : RTNode T) : Heap T :=
  ⟨fun j => if j = i then n else h.nodes j⟩

/-- Embed the JavaScript assignment `node.left = v`. -/
def Heap.setLeft {T : Type} (h : Heap T) (i : Nat) (v : Option Nat) : Heap T :=
  h.update i { h.nodes i with left := v }

/-- Embed the JavaScript assignment `node.right = v`. -/
def Heap.setRight {T : Type} (h : Heap T) (i : Nat) (v : Option Nat) : Heap T :=
  h.update i { h.nodes i with right := v }

theorem Heap.nodes_ext {T : Type} {h h' : Heap T} (hn : ∀ j, h.nodes j = h'.nodes j) :
    h = h' := by
  cases h; cases h'; simp only [Heap.mk.injEq]; funext j; exact hn j

@[simp] theorem Heap.update_read_same {T : Type} (h : Heap T) (i : Nat) (n : RTNode T) :
    (h.update i n).nodes i = n := by
  simp [Heap.update]

theorem Heap.update_read_other {T : Type} (h : Heap T) {i j : Nat} (n : RTNode T)
    (hij : j ≠ i) : (h.update i n).nodes j = h.nodes j := by
  simp [Heap.update, hij]

/-- The type of an observer callback in the heap model: it receives the
current heap and the two node identities and may mutate balance metadata,
producing a new heap. -/
def Cb (T : Type) : Type := Heap T → Nat → Nat → Heap T

/-- Run an optional callback, as the source's `if (onRotate !== undefined)`
guard does: absent callbacks leave the heap untouched. -/
def callCb {T : Type} (cb : Option (Cb T)) (h : Heap T) (x y : Nat) : Heap T :=
  match cb with
  | none => h
  | some f => f h x y

/-- A callback is pure when invoking it never changes the heap; the absent
callback is pure. -/
def CbPure {T : Type} (cb : Option (Cb T)) : Prop :=
  ∀ h x y, callCb cb h x y = h

theorem cbPure_none {T : Type} : CbPure (T := T) none := fun _ _ _ => rfl

/-- Embedding of `singleLeft` from `src/index.ts`:
if `a.right` is undefined return `a`; otherwise let `b = a.right`, invoke
`onRotate(a, b)` when supplied, then `a.right = b.left; b.left = a` and
return `b`.  The result pairs the final heap with the returned root. -/
def singleLeft {T : Type} (h : Heap T) (a : Nat) (onRotate : Option (Cb T)) :
    Heap T × Nat :=
  match (h.nodes a).right with
  | none => (h, a)
  | some b =>
    let h1 := callCb onRotate h a b
    let h2 := h1.setRight a ((h1.nodes b).left)
    let h3 := h2.setLeft b (some a)
    (h3, b)

/-- Embedding of `singleRight` from `src/index.ts`:
if `c.left` is undefined return `c`; otherwise let `b = c.left`, invoke
`onRotate(b, c)` when supplied, then `c.left = b.right; b.right = c` and
return `b`. -/
def singleRight {T : Type} (h : Heap T) (c : Nat) (onRotate : Option (Cb T)) :
    Heap T × Nat :=
  match (h.nodes c).left with
  | none => (h, c)
  | some b =>
    let h1 := callCb onRotate h b c
    let h2 := h1.setLeft c ((h1.nodes b).right)
    let h3 := h2.setRight b (some c)
    (h3, b)

/-- Embedding of `doubleLeft` from `src/index.ts`:
if `a.right` is undefined return `a`; otherwise
`a.right = singleRight(a.right, onRight)` then `return singleLeft(a, onLeft)`. -/
def doubleLeft {T : Type} (h : Heap T) (a : Nat)
    (onLeft onRight : Option (Cb T)) : Heap T × Nat :=
  match (h.nodes a).right with
  | none => (h, a)
  | some r =>
    let p := singleRight h r onRight
    let h2 := p.1.setRight a (some p.2)
    singleLeft h2 a onLeft

/-- Embedding of `doubleRight` from `src/index.ts`:
if `c.left` is undefined return `c`; otherwise
`c.left = singleLeft(c.left, onLeft)` then `return singleRight(c, onRight)`. -/
def doubleRight {T : Type} (h : Heap T) (c : Nat)
    (onLeft onRight : Option (Cb T)) : Heap T × Nat :=
  match (h.nodes c).left with
  | none => (h, c)
  | some l =>
    let p := singleLeft h l onLeft
    let h2 := p.1.setLeft c (some p.2)
    singleRight h2 c onRight

/-- The record of bound operations returned by `useRotatingTree`. -/
structure RotatingTreeApi (T : Type) where
  singleLeft : Heap T → Nat → Heap T × Nat
  singleRight : Heap T → Nat → Heap T × Nat
  doubleLeft : Heap T → Nat → Heap T × Nat
  doubleRight : Heap T → Nat → Heap T × Nat

/-- Embedding of `useRotatingTree` from `src/index.ts`: returns the four
rotations with the given `onLeft` and `onRight` callbacks bound. -/
def useRotatingTree {T : Type} (onLeft onRight : Cb T) : RotatingTreeApi T where
  singleLeft := fun h a => Balanced.singleLeft h a (some onLeft)
  singleRight := fun h c => Balanced.singleRight h c (some onRight)
  doubleLeft := fun h a => Balanced.doubleLeft h a (some onLeft) (some onRight)
  doubleRight := fun h c => Balanced.doubleRight h c (some onLeft) (some onRight)

/-- Embedding of `deepCopy` from `src/common.ts`:
`root && { ...root, left: deepCopy(root.left), right: deepCopy(root.right) }`.
An absent root copies to an absent root with the heap untouched.  A present
root first copies the left subtree, then the right subtree, then allocates a
fresh node carrying the same payload and the two copied children.  Fresh
identities are drawn from the counter `fresh` upward; `fuel` bounds the
recursion depth (the JavaScript recursion is bounded only by tree height)
and `none` signals exhausted fuel. -/
def deepCopy {T : Type} :
    Heap T → Nat → Option Nat → Nat → Option (Heap T × Option Nat × Nat)
  | h, _, none, fresh => some (h, none, fresh)
  | _, 0, some _, _ => none
  | h, fuel + 1, some r, fresh =>
    match deepCopy h fuel ((h.nodes r).left) fresh with
    | none => none
    | some (h1, lc, f1) =>
      match deepCopy h1 fuel ((h.nodes r).right) f1 with
      | none => none
      | some (h2, rc, f2) =>
        some (h2.update f2 ⟨(h.nodes r).data, lc, rc⟩, some f2, f2 + 1)

@[simp] theorem Heap.setLeft_read_same {T : Type} (h : Heap T) (i : Nat) (v : Option Nat) :
    (h.setLeft i v).nodes i = { h.nodes i with left := v } := by
  simp [Heap.setLeft]

theorem Heap.setLeft_read_other {T : Type} (h : Heap T) {i j : Nat} (v : Option Nat)
    (hij : j ≠ i) : (h.setLeft i v).nodes j = h.nodes j := by
  simp [Heap.setLeft, Heap.update, hij]

@[simp] theorem Heap.setRight_read_same {T : Type} (h : Heap T) (i : Nat) (v : Option Nat) :
    (h.setRight i v).nodes i = { h.nodes i with right := v } := by
  simp [Heap.setRight]

theorem Heap.setRight_read_other {T : Type} (h : Heap T) {i j : Nat} (v : Option Nat)
    (hij : j ≠ i) : (h.setRight i v).nodes j = h.nodes j := by
  simp [Heap.setRight, Heap.update, hij]

/-- Unfolding of `singleLeft` without a callback on a node with a right child. -/
theorem singleLeft_none_eq {T : Type} (h : Heap T) (a b : Nat)
    (hb : (h.nodes a).right = some b) :
    singleLeft h a none = ((h.setRight a ((h.nodes b).left)).setLeft b (some a), b) := by
  simp [singleLeft, hb, callCb]

/-- Unfolding of `singleRight` without a callback on a node with a left child. -/
theorem singleRight_none_eq {T : Type} (h : Heap T) (c b : Nat)
    (hb : (h.nodes c).left = some b) :
    singleRight h c none = ((h.setLeft c ((h.nodes b).right)).setRight b (some c), b) := by
  simp [singleRight, hb, callCb]

theorem RTNode.fields_ext {T : Type} {m n : RTNode T} (hd : m.data = n.data)
    (hl : m.left = n.left) (hr : m.right = n.right) : m = n := by
  cases m; cases n; cases hd; cases hl; cases hr; rfl

/-- A pure callback can be dropped from `singleLeft`. -/
theorem singleLeft_cbPure {T : Type} (h : Heap T) (a : Nat) {cb : Option (Cb T)}
    (hcb : CbPure cb) : singleLeft h a cb = singleLeft h a none := by
  cases hr : (h.nodes a).right with
  | none => simp [singleLeft, hr]
  | some b => simp only [singleLeft, hr]; rw [hcb h a b]; rfl

/-- A pure callback can be dropped from `singleRight`. -/
theorem singleRight_cbPure {T : Type} (h : Heap T) (c : Nat) {cb : Option (Cb T)}
    (hcb : CbPure cb) : singleRight h c cb = singleRight h c none := by
  cases hl : (h.nodes c).left with
  | none => simp [singleRight, hl]
  | some b => simp only [singleRight, hl]; rw [hcb h b c]; rfl

/-- Pure callbacks can be dropped from `doubleLeft`. -/
theorem doubleLeft_cbPure {T : Type} (h : Heap T) (a : Nat) {cbl cbr : Option (Cb T)}
    (hl : CbPure cbl) (hr : CbPure cbr) :
    doubleLeft h a cbl cbr = doubleLeft h a none none := by
  cases hra : (h.nodes a).right with
  | none => simp [doubleLeft, hra]
  | some r =>
    simp only [doubleLeft, hra]
    rw [singleRight_cbPure h r hr, singleLeft_cbPure _ a hl]

/-- Pure callbacks can be dropped from `doubleRight`. -/
theorem doubleRight_cbPure {T : Type} (h : Heap T) (c : Nat) {cbl cbr : Option (Cb T)}
    (hl : CbPure cbl) (hr : CbPure cbr) :
    doubleRight h c cbl cbr = doubleRight h c none none := by
  cases hlc : (h.nodes c).left with
  | none => simp [doubleRight, hlc]
  | some l =>
    simp only [doubleRight, hlc]
    rw [singleLeft_cbPure h l hl, singleRight_cbPure _ c hr]

/-- The fixed example tree `rightHeavy` from `src/common.ts`, laid out in the
heap with node identities 0 (`a`), 1 (`b`), 2 (`c`); other identities hold an
inert childless node. -/
def rightHeavy : Heap Char :=
  ⟨fun i =>
    if i = 0 then ⟨'a', none, some 1⟩
    else if i = 1 then ⟨'b', none, some 2⟩
    else ⟨'c', none, none⟩⟩

/-- The fixed example tree `rightMiddleHeavy` from `src/common.ts`, with node
identities 0 (`a`), 1 (`c`), 2 (`b`). -/
def rightMiddleHeavy : Heap Char :=
  ⟨fun i =>
    if i = 0 then ⟨'a', none, some 1⟩
    else if i = 1 then ⟨'c', some 2, none⟩
    else ⟨'b', none, none⟩⟩

/-- The fixed example tree `leftMiddleHeavy` from `src/common.ts`, with node
identities 0 (`c`), 1 (`a`), 2 (`b`). -/
def leftMiddleHeavy : Heap Char :=
  ⟨fun i =>
    if i = 0 then ⟨'c', some 1, none⟩
    else if i = 1 then ⟨'a', none, some 2⟩
    else ⟨'b', none, none⟩⟩

/-- C1: for every node `a` with a right child `b`, `singleLeft(a)` returns
`b`, and after the call `b.left` is `a` and `a.right` is `b`'s original left
child. -/
theorem c1_singleLeft_relinks {T : Type} (h : Heap T) (a b : Nat)
    (hb : (h.nodes a).right = some b) :
    (singleLeft h a none).2 = b ∧
    (((singleLeft h a none).1).nodes b).left = some a ∧
    (((singleLeft h a none).1).nodes a).right = (h.nodes b).left := by
  rw [singleLeft_none_eq h a b hb]
  refine ⟨rfl, by simp, ?_⟩
  rcases eq_or_ne a b with hab | hab
  · subst hab; simp
  · rw [Heap.setLeft_read_other _ _ hab, Heap.setRight_read_same]

/-- Witness for C1 on the `rightHeavy` fixture: rotating at node 0 (`a`)
returns node 1 (`b`), relinking as described. -/
theorem c1_witness :
    (rightHeavy.nodes 0).right = some 1 ∧
    ((singleLeft rightHeavy 0 none).2 = 1 ∧
      (((singleLeft rightHeavy 0 none).1).nodes 1).left = some 0 ∧
      (((singleLeft rightHeavy 0 none).1).nodes 0).right = (rightHeavy.nodes 1).left) :=
  ⟨rfl, c1_singleLeft_relinks rightHeavy 0 1 rfl⟩

/-- C3: whenever the required child is absent (`right` for `singleLeft` and
`doubleLeft`, `left` for `singleRight` and `doubleRight`), the rotation
performs no mutation and returns the very same input node, for any supplied
callbacks — the functions are total, so no error outcome exists. -/
theorem c3_missing_child_noop {T : Type} (h : Heap T) (n : Nat)
    (cb cbl cbr : Option (Cb T)) :
    ((h.nodes n).right = none → singleLeft h n cb = (h, n)) ∧
    ((h.nodes n).left = none → singleRight h n cb = (h, n)) ∧
    ((h.nodes n).right = none → doubleLeft h n cbl cbr = (h, n)) ∧
    ((h.nodes n).left = none → doubleRight h n cbl cbr = (h, n)) := by
  refine ⟨fun hr => ?_, fun hl => ?_, fun hr => ?_, fun hl => ?_⟩
  · simp [singleLeft, hr]
  · simp [singleRight, hl]
  · simp [doubleLeft, hr]
  · simp [doubleRight, hl]

/-- Witness for C3 at node 2 of `rightHeavy`, which has no children: all four
rotations leave the heap intact and return the node itself. -/
theorem c3_witness :
    singleLeft rightHeavy 2 none = (rightHeavy, 2) ∧
    singleRight rightHeavy 2 none = (rightHeavy, 2) ∧
    doubleLeft rightHeavy 2 none none = (rightHeavy, 2) ∧
    doubleRight rightHeavy 2 none none = (rightHeavy, 2) :=
  ⟨(c3_missing_child_noop rightHeavy 2 none none none).1 rfl,
    (c3_missing_child_noop rightHeavy 2 none none none).2.1 rfl,
    (c3_missing_child_noop rightHeavy 2 none none none).2.2.1 rfl,
    (c3_missing_child_noop rightHeavy 2 none none none).2.2.2 rfl⟩

/-- C9: every operation of the record returned by `useRotatingTree` behaves,
on every heap and root, exactly as the corresponding free function called
with the captured `onLeft`/`onRight` callbacks. -/
theorem c9_useRotatingTree_delegates {T : Type} (onLeft onRight : Cb T)
    (h : Heap T) (n : Nat) :
    (useRotatingTree onLeft onRight).singleLeft h n = singleLeft h n (some onLeft) ∧
    (useRotatingTree onLeft onRight).singleRight h n = singleRight h n (some onRight) ∧
    (useRotatingTree onLeft onRight).doubleLeft h n
      = doubleLeft h n (some onLeft) (some onRight) ∧
    (useRotatingTree onLeft onRight).doubleRight h n
      = doubleRight h n (some onLeft) (some onRight) :=
  ⟨rfl, rfl, rfl, rfl⟩

/-- C10: when `a` has a right child `b` but `b` has no left child,
`singleLeft(a)` still rotates fully: it returns `b`, sets `b.left` to `a`,
and leaves `a` with no right child. -/
theorem c10_singleLeft_without_grandchild {T : Type} (h : Heap T) (a b : Nat)
    (hb : (h.nodes a).right = some b) (hbl : (h.nodes b).left = none) :
    (singleLeft h a none).2 = b ∧
    (((singleLeft h a none).1).nodes b).left = some a ∧
    (((singleLeft h a none).1).nodes a).right = none := by
  rw [singleLeft_none_eq h a b hb, hbl]
  refine ⟨rfl, by simp, ?_⟩
  rcases eq_or_ne a b with hab | hab
  · subst hab; simp
  · rw [Heap.setLeft_read_other _ _ hab, Heap.setRight_read_same]

/-- Witness for C10 on `rightHeavy` at node 1 (`b`): its right child 2 (`c`)
has no left child, yet the rotation still relinks fully. -/
theorem c10_witness :
    (rightHeavy.nodes 1).right = some 2 ∧ (rightHeavy.nodes 2).left = none ∧
    ((singleLeft rightHeavy 1 none).2 = 2 ∧
      (((singleLeft rightHeavy 1 none).1).nodes 2).left = some 1 ∧
      (((singleLeft rightHeavy 1 none).1).nodes 1).right = none) :=
  ⟨rfl, rfl, c10_singleLeft_without_grandchild rightHeavy 1 2 rfl rfl⟩

/-- C4: the callback contract of the single rotations.  When the rotation
fires, the supplied callback appears exactly once in the result, is applied
to the pre-mutation heap (so it runs strictly before any structural change is
observable), and receives the arguments in the documented order —
`singleLeft` passes parent then child `(a, b)`, `singleRight` passes child
then parent `(b, c)`; the relink is then performed on the callback's output.
When the rotation is a no-op the callback is not consulted at all. -/
theorem c4_callback_contract {T : Type} (h : Heap T) (n b : Nat) (f : Cb T) :
    ((h.nodes n).right = some b →
      singleLeft h n (some f)
        = (((f h n b).setRight n (((f h n b).nodes b).left)).setLeft b (some n), b)) ∧
    ((h.nodes n).right = none → singleLeft h n (some f) = (h, n)) ∧
    ((h.nodes n).left = some b →
      singleRight h n (some f)
        = (((f h b n).setLeft n (((f h b n).nodes b).right)).setRight b (some n), b)) ∧
    ((h.nodes n).left = none → singleRight h n (some f) = (h, n)) := by
  refine ⟨fun hr => ?_, fun hr => ?_, fun hl => ?_, fun hl => ?_⟩
  · simp [singleLeft, hr, callCb]
  · simp [singleLeft, hr]
  · simp [singleRight, hl, callCb]
  · simp [singleRight, hl]

/-- Witness for C4 on `rightHeavy` with a concrete payload-writing callback:
rotating at node 0 invokes it once on the untouched heap with `(0, 1)`, and
at the childless node 2 both rotations ignore it. -/
theorem c4_witness :
    (singleLeft rightHeavy 0 (some fun g x _ => g.update x ⟨'z', (g.nodes x).left, (g.nodes x).right⟩)
      = (((rightHeavy.update 0 ⟨'z', none, some 1⟩).setRight 0 none).setLeft 1 (some 0), 1)) ∧
    singleLeft rightHeavy 2 (some fun g _ _ => g) = (rightHeavy, 2) ∧
    singleRight rightHeavy 2 (some fun g _ _ => g) = (rightHeavy, 2) := by
  refine ⟨?_, ?_, ?_⟩
  · have h1 := (c4_callback_contract rightHeavy 0 1
      (fun g x _ => g.update x ⟨'z', (g.nodes x).left, (g.nodes x).right⟩)).1 rfl
    rw [h1]; rfl
  · exact (c4_callback_contract rightHeavy 2 0 (fun g _ _ => g)).2.1 rfl
  · exact (c4_callback_contract rightHeavy 2 0 (fun g _ _ => g)).2.2.2 rfl

/-- C2: `doubleLeft` is exactly the composition
`a.right = singleRight(a.right, onRight); return singleLeft(a, onLeft)`, and
`doubleRight` the mirror composition; when the inner rotation's own
precondition fails it is a no-op and the outer rotation still executes on the
unchanged subtree. -/
theorem c2_double_is_composition {T : Type} (h : Heap T) (n : Nat)
    (cbl cbr : Option (Cb T)) :
    (∀ r, (h.nodes n).right = some r →
      doubleLeft h n cbl cbr
        = singleLeft
            ((singleRight h r cbr).1.setRight n (some (singleRight h r cbr).2)) n cbl) ∧
    (∀ r, (h.nodes n).right = some r → (h.nodes r).left = none →
      doubleLeft h n cbl cbr = singleLeft h n cbl) ∧
    (∀ l, (h.nodes n).left = some l →
      doubleRight h n cbl cbr
        = singleRight
            ((singleLeft h l cbl).1.setLeft n (some (singleLeft h l cbl).2)) n cbr) ∧
    (∀ l, (h.nodes n).left = some l → (h.nodes l).right = none →
      doubleRight h n cbl cbr = singleRight h n cbr) := by
  refine ⟨?_, ?_, ?_, ?_⟩
  · intro r hr
    simp [doubleLeft, hr]
  · intro r hr hrl
    have hnoop : singleRight h r cbr = (h, r) := by simp [singleRight, hrl]
    have hset : h.setRight n (some r) = h := by
      refine Heap.nodes_ext fun j => ?_
      by_cases hj : j = n
      · subst hj
        rw [Heap.setRight_read_same, ← hr]
      · rw [Heap.setRight_read_other _ _ hj]
    simp only [doubleLeft, hr, hnoop, hset]
  · intro l hl
    simp [doubleRight, hl]
  · intro l hl hlr
    have hnoop : singleLeft h l cbl = (h, l) := by simp [singleLeft, hlr]
    have hset : h.setLeft n (some l) = h := by
      refine Heap.nodes_ext fun j => ?_
      by_cases hj : j = n
      · subst hj
        rw [Heap.setLeft_read_same, ← hl]
      · rw [Heap.setLeft_read_other _ _ hj]
    simp only [doubleRight, hl, hnoop, hset]

/-- Witness for C2: on `rightMiddleHeavy` the double left rotation is the
two-step composition, and on `rightHeavy` (whose right child has no left
child) the inner step is a no-op and the outer left rotation still runs. -/
theorem c2_witness :
    (doubleLeft rightMiddleHeavy 0 none none
      = singleLeft
          ((singleRight rightMiddleHeavy 1 none).1.setRight 0
            (some (singleRight rightMiddleHeavy 1 none).2)) 0 none) ∧
    doubleLeft rightHeavy 0 none none = singleLeft rightHeavy 0 none ∧
    (doubleRight leftMiddleHeavy 0 none none
      = singleRight
          ((singleLeft leftMiddleHeavy 1 none).1.setLeft 0
            (some (singleLeft leftMiddleHeavy 1 none).2)) 0 none) :=
  ⟨(c2_double_is_composition rightMiddleHeavy 0 none none).1 1 rfl,
    (c2_double_is_composition rightHeavy 0 none none).2.1 1 rfl rfl,
    (c2_double_is_composition leftMiddleHeavy 0 none none).2.2.1 1 rfl⟩

/-- C5: after `singleLeft` rotates `a` with right child `b`, a subsequent
`singleRight` on the returned root `b` restores the original heap exactly —
in particular `a.right` is `b` again and `b.left` is `b`'s original left
child — and hands back root `a`. -/
theorem c5_singleRight_undoes_singleLeft {T : Type} (h : Heap T) (a b : Nat)
    (hb : (h.nodes a).right = some b) :
    (singleLeft h a none).2 = b ∧
    singleRight ((singleLeft h a none).1) b none = (h, a) := by
  rw [singleLeft_none_eq h a b hb]
  refine ⟨rfl, ?_⟩
  rcases eq_or_ne a b with hab | hab
  · subst hab
    rw [singleRight_none_eq _ a a (by simp)]
    simp only [Prod.mk.injEq]
    refine ⟨Heap.nodes_ext fun j => ?_, trivial⟩
    by_cases hj : j = a
    · subst hj
      simp only [Heap.setLeft_read_same, Heap.setRight_read_same]
      refine RTNode.fields_ext ?_ ?_ ?_ <;> simp [hb]
    · rw [Heap.setRight_read_other _ _ hj, Heap.setLeft_read_other _ _ hj,
        Heap.setLeft_read_other _ _ hj, Heap.setRight_read_other _ _ hj]
  · rw [singleRight_none_eq _ b a (by simp)]
    simp only [Prod.mk.injEq]
    refine ⟨Heap.nodes_ext fun j => ?_, trivial⟩
    have hra : ((h.setRight a ((h.nodes b).left)).setLeft b (some a)).nodes a
        = { h.nodes a with right := (h.nodes b).left } := by
      rw [Heap.setLeft_read_other _ _ hab, Heap.setRight_read_same]
    by_cases hja : j = a
    · subst hja
      rw [Heap.setRight_read_same, Heap.setLeft_read_other _ _ hab, hra]
      refine RTNode.fields_ext ?_ ?_ ?_ <;> simp [hb]
    · by_cases hjb : j = b
      · subst hjb
        rw [Heap.setRight_read_other _ _ hja, Heap.setLeft_read_same,
          Heap.setLeft_read_same, hra]
        refine RTNode.fields_ext ?_ ?_ ?_ <;> simp [Heap.setRight_read_other _ _ hja]
      · rw [Heap.setRight_read_other _ _ hja, Heap.setLeft_read_other _ _ hjb,
          Heap.setLeft_read_other _ _ hjb, Heap.setRight_read_other _ _ hja]

/-- Witness for C5 on `rightHeavy`: rotating left at node 0 then right at the
returned root 1 restores the original heap and root. -/
theorem c5_witness :
    (singleLeft rightHeavy 0 none).2 = 1 ∧
    singleRight ((singleLeft rightHeavy 0 none).1) 1 none = (rightHeavy, 0) :=
  c5_singleRight_undoes_singleLeft rightHeavy 0 1 rfl

/-- C8: a single left rotation with a pure (or absent) callback on distinct
nodes `a`, `b` mutates only `a.right` (which becomes `b`'s old left child)
and `b.left` (which becomes `a`); `a`'s data and left child and `b`'s data
and right child are preserved by the record updates shown, and every other
identity maps to the identical node record, so no node is created, dropped,
or has its payload changed. -/
theorem c8_singleLeft_frame {T : Type} (h : Heap T) (a b : Nat)
    {cb : Option (Cb T)} (hcb : CbPure cb)
    (hb : (h.nodes a).right = some b) (hab : a ≠ b) :
    (singleLeft h a cb).2 = b ∧
    ((singleLeft h a cb).1).nodes a = { h.nodes a with right := (h.nodes b).left } ∧
    ((singleLeft h a cb).1).nodes b = { h.nodes b with left := some a } ∧
    ∀ j, j ≠ a → j ≠ b → ((singleLeft h a cb).1).nodes j = h.nodes j := by
  rw [singleLeft_cbPure h a hcb, singleLeft_none_eq h a b hb]
  refine ⟨rfl, ?_, ?_, fun j hja hjb => ?_⟩
  · rw [Heap.setLeft_read_other _ _ hab, Heap.setRight_read_same]
  · rw [Heap.setLeft_read_same, Heap.setRight_read_other _ _ (Ne.symm hab)]
  · rw [Heap.setLeft_read_other _ _ hjb, Heap.setRight_read_other _ _ hja]

/-- Witness for C8 on `rightHeavy` at node 0 with the absent callback: only
the two documented links change and node 2 keeps its exact record. -/
theorem c8_witness :
    (singleLeft rightHeavy 0 none).2 = 1 ∧
    ((singleLeft rightHeavy 0 none).1).nodes 0
      = { rightHeavy.nodes 0 with right := (rightHeavy.nodes 1).left } ∧
    ((singleLeft rightHeavy 0 none).1).nodes 1
      = { rightHeavy.nodes 1 with left := some 0 } ∧
    ((singleLeft rightHeavy 0 none).1).nodes 2 = rightHeavy.nodes 2 :=
  ⟨(c8_singleLeft_frame rightHeavy 0 1 cbPure_none rfl (by decide)).1,
    (c8_singleLeft_frame rightHeavy 0 1 cbPure_none rfl (by decide)).2.1,
    (c8_singleLeft_frame rightHeavy 0 1 cbPure_none rfl (by decide)).2.2.1,
    (c8_singleLeft_frame rightHeavy 0 1 cbPure_none rfl (by decide)).2.2.2 2
      (by decide) (by decide)⟩

/-- Pure view of a heap subtree: every reached node keeps its identity and
its payload. -/
inductive ITree (T : Type) where
  | leaf : ITree T
  | node (i : Nat) (d : T) (l r : ITree T) : ITree T
  deriving DecidableEq, Repr

/-- The heap represents the pure tree `t` at `root`: `t` records exactly the
identities and payloads reached from `root` by following child links.  A
representable subtree is finite and acyclic by construction. -/
inductive Represents {T : Type} (h : Heap T) : Option Nat → ITree T → Prop where
  | leaf : Represents h none ITree.leaf
  | node {i : Nat} {d : T} {l r : Option Nat} {tl tr : ITree T}
      (hn : h.nodes i = ⟨d, l, r⟩)
      (hl : Represents h l tl) (hr : Represents h r tr) :
      Represents h (some i) (ITree.node i d tl tr)

/-- In-order list of the node identities of a pure tree view. -/
def idList {T : Type} : ITree T → List Nat
  | ITree.leaf => []
  | ITree.node i _ l r => idList l ++ i :: idList r

/-- In-order list of the data payloads of a pure tree view. -/
def inorderData {T : Type} : ITree T → List T
  | ITree.leaf => []
  | ITree.node _ d l r => inorderData l ++ d :: inorderData r

/-- Height of a pure tree view. -/
def heightI {T : Type} : ITree T → Nat
  | ITree.leaf => 0
  | ITree.node _ _ l r => max (heightI l) (heightI r) + 1

/-- Identity-erased shape of a tree view, used to state that a deep copy is
structurally identical to its source with the same payloads. -/
inductive DTree (T : Type) where
  | leaf : DTree T
  | node (d : T) (l r : DTree T) : DTree T
  deriving DecidableEq, Repr

/-- Erase the node identities of a tree view, leaving shape and payloads. -/
def dataTree {T : Type} : ITree T → DTree T
  | ITree.leaf => DTree.leaf
  | ITree.node _ d l r => DTree.node d (dataTree l) (dataTree r)

/-- Representation only reads the nodes listed in the view, so any heap that
agrees on those identities represents the same view. -/
theorem represents_frame {T : Type} {h h' : Heap T} {root : Option Nat}
    {t : ITree T} (ht : Represents h root t)
    (hagree : ∀ i ∈ idList t, h'.nodes i = h.nodes i) :
    Represents h' root t := by
  induction ht with
  | leaf => exact Represents.leaf
  | node hn hl hr ihl ihr =>
    rename_i i d l r tl tr
    refine Represents.node ?_ (ihl fun j hj => ?_) (ihr fun j hj => ?_)
    · rw [hagree i (by simp [idList]), hn]
    · exact hagree j (by simp [idList, hj])
    · exact hagree j (by simp [idList, hj])

/-- Splitting of a no-duplicates in-order identity list into the
disequalities the rotation proofs need. -/
theorem nodup_split {α : Type} [DecidableEq α] {L1 L2 L3 : List α} {a b : α}
    (hnd : (L1 ++ a :: (L2 ++ b :: L3)).Nodup) :
    a ≠ b ∧ a ∉ L1 ∧ a ∉ L2 ∧ a ∉ L3 ∧ b ∉ L1 ∧ b ∉ L2 ∧ b ∉ L3 := by
  obtain ⟨-, h2, hd1⟩ := List.nodup_append.1 hnd
  obtain ⟨ha, h3⟩ := List.nodup_cons.1 h2
  obtain ⟨-, h4, hd2⟩ := List.nodup_append.1 h3
  obtain ⟨hb3, -⟩ := List.nodup_cons.1 h4
  rw [List.mem_append] at ha
  push_neg at ha
  obtain ⟨ha2, ha3⟩ := ha
  rw [List.mem_cons] at ha3
  push_neg at ha3
  obtain ⟨hab, ha3⟩ := ha3
  exact ⟨hab, fun hx => hd1 hx (List.mem_cons_self a _), ha2, ha3,
    fun hx => hd1 hx (by simp), fun hx => hd2 hx (List.mem_cons_self b _), hb3⟩

/-- A single left rotation with a pure (or absent) callback turns a
represented subtree into a represented subtree at the returned root, with the
identical in-order identity list and payload list, touching no node outside
the subtree. -/
theorem singleLeft_represents {T : Type} {h : Heap T} {a : Nat} {t : ITree T}
    {cb : Option (Cb T)} (hcb : CbPure cb)
    (ht : Represents h (some a) t) (hnd : (idList t).Nodup) :
    ∃ t', Represents (singleLeft h a cb).1 (some (singleLeft h a cb).2) t' ∧
      inorderData t' = inorderData t ∧ idList t' = idList t ∧
      ∀ j, j ∉ idList t → ((singleLeft h a cb).1).nodes j = h.nodes j := by
  rw [singleLeft_cbPure h a hcb]
  cases ht with
  | node hn hlrep hrrep =>
    rename_i d l r tl tr
    cases hrrep with
    | leaf =>
      have heq : singleLeft h a none = (h, a) := by simp [singleLeft, hn]
      rw [heq]
      exact ⟨ITree.node a d tl ITree.leaf,
        Represents.node hn hlrep Represents.leaf, rfl, rfl, fun j _ => rfl⟩
    | node hbn hblrep hbrrep =>
      rename_i b db bl br tbl tbr
      have hra : (h.nodes a).right = some b := by rw [hn]
      have hblv : (h.nodes b).left = bl := by rw [hbn]
      have heq := singleLeft_none_eq h a b hra
      rw [hblv] at heq
      rw [heq]
      have hnd' : (idList tl ++ a :: (idList tbl ++ b :: idList tbr)).Nodup := by
        simpa [idList] using hnd
      obtain ⟨hab, hatl, hatbl, hatbr, hbtl, hbtbl, hbtbr⟩ := nodup_split hnd'
      have hHa : ((h.setRight a bl).setLeft b (some a)).nodes a = ⟨d, l, bl⟩ := by
        rw [Heap.setLeft_read_other _ _ hab, Heap.setRight_read_same, hn]
      have hHb : ((h.setRight a bl).setLeft b (some a)).nodes b = ⟨db, some a, br⟩ := by
        rw [Heap.setLeft_read_same, Heap.setRight_read_other _ _ (Ne.symm hab), hbn]
      have hframe : ∀ j, j ≠ a → j ≠ b →
          ((h.setRight a bl).setLeft b (some a)).nodes j = h.nodes j :=
        fun j hja hjb => by
          rw [Heap.setLeft_read_other _ _ hjb, Heap.setRight_read_other _ _ hja]
      refine ⟨ITree.node b db (ITree.node a d tl tbl) tbr,
        Represents.node hHb (Represents.node hHa ?_ ?_) ?_, ?_, ?_, ?_⟩
      · exact represents_frame hlrep fun i hi =>
          hframe i (fun he => hatl (he ▸ hi)) (fun he => hbtl (he ▸ hi))
      · exact represents_frame hblrep fun i hi =>
          hframe i (fun he => hatbl (he ▸ hi)) (fun he => hbtbl (he ▸ hi))
      · exact represents_frame hbrrep fun i hi =>
          hframe i (fun he => hatbr (he ▸ hi)) (fun he => hbtbr (he ▸ hi))
      · simp [inorderData]
      · simp [idList]
      · intro j hj
        refine hframe j (fun he => hj ?_) (fun he => hj ?_) <;> simp [idList, he]

/-- A single right rotation with a pure (or absent) callback turns a
represented subtree into a represented subtree at the returned root, with the
identical in-order identity list and payload list, touching no node outside
the subtree. -/
theorem singleRight_represents {T : Type} {h : Heap T} {c : Nat} {t : ITree T}
    {cb : Option (Cb T)} (hcb : CbPure cb)
    (ht : Represents h (some c) t) (hnd : (idList t).Nodup) :
    ∃ t', Represents (singleRight h c cb).1 (some (singleRight h c cb).2) t' ∧
      inorderData t' = inorderData t ∧ idList t' = idList t ∧
      ∀ j, j ∉ idList t → ((singleRight h c cb).1).nodes j = h.nodes j := by
  rw [singleRight_cbPure h c hcb]
  cases ht with
  | node hn hlrep hrrep =>
    rename_i d l r tl tr
    cases hlrep with
    | leaf =>
      have heq : singleRight h c none = (h, c) := by simp [singleRight, hn]
      rw [heq]
      exact ⟨ITree.node c d ITree.leaf tr,
        Represents.node hn Represents.leaf hrrep, rfl, rfl, fun j _ => rfl⟩
    | node hbn hblrep hbrrep =>
      rename_i b db bl br tbl tbr
      have hlc : (h.nodes c).left = some b := by rw [hn]
      have hbrv : (h.nodes b).right = br := by rw [hbn]
      have heq := singleRight_none_eq h c b hlc
      rw [hbrv] at heq
      rw [heq]
      have hnd' : (idList tbl ++ b :: (idList tbr ++ c :: idList tr)).Nodup := by
        simpa [idList] using hnd
      obtain ⟨hbc, hbtbl, hbtbr, hbtr, hctbl, hctbr, hctr⟩ := nodup_split hnd'
      have hHc : ((h.setLeft c br).setRight b (some c)).nodes c = ⟨d, br, r⟩ := by
        rw [Heap.setRight_read_other _ _ (Ne.symm hbc), Heap.setLeft_read_same, hn]
      have hHb : ((h.setLeft c br).setRight b (some c)).nodes b = ⟨db, bl, some c⟩ := by
        rw [Heap.setRight_read_same, Heap.setLeft_read_other _ _ hbc, hbn]
      have hframe : ∀ j, j ≠ b → j ≠ c →
          ((h.setLeft c br).setRight b (some c)).nodes j = h.nodes j :=
        fun j hjb hjc => by
          rw [Heap.setRight_read_other _ _ hjb, Heap.setLeft_read_other _ _ hjc]
      refine ⟨ITree.node b db tbl (ITree.node c d tbr tr),
        Represents.node hHb ?_ (Represents.node hHc ?_ ?_), ?_, ?_, ?_⟩
      · exact represents_frame hblrep fun i hi =>
          hframe i (fun he => hbtbl (he ▸ hi)) (fun he => hctbl (he ▸ hi))
      · exact represents_frame hbrrep fun i hi =>
          hframe i (fun he => hbtbr (he ▸ hi)) (fun he => hctbr (he ▸ hi))
      · exact represents_frame hrrep fun i hi =>
          hframe i (fun he => hbtr (he ▸ hi)) (fun he => hctr (he ▸ hi))
      · simp [inorderData]
      · simp [idList]
      · intro j hj
        refine hframe j (fun he => hj ?_) (fun he => hj ?_) <;> simp [idList, he]

/-- A double left rotation with pure (or absent) callbacks preserves the
represented subtree's in-order identity and payload lists and touches no node
outside the subtree. -/
theorem doubleLeft_represents {T : Type} {h : Heap T} {a : Nat} {t : ITree T}
    {cbl cbr : Option (Cb T)} (hcl : CbPure cbl) (hcr : CbPure cbr)
    (ht : Represents h (some a) t) (hnd : (idList t).Nodup) :
    ∃ t', Represents (doubleLeft h a cbl cbr).1 (some (doubleLeft h a cbl cbr).2) t' ∧
      inorderData t' = inorderData t ∧ idList t' = idList t ∧
      ∀ j, j ∉ idList t → ((doubleLeft h a cbl cbr).1).nodes j = h.nodes j := by
  cases ht with
  | node hn hlrep hrrep =>
    rename_i d l r tl tr
    cases hrrep with
    | leaf =>
      have heq : doubleLeft h a cbl cbr = (h, a) := by simp [doubleLeft, hn]
      rw [heq]
      exact ⟨ITree.node a d tl ITree.leaf,
        Represents.node hn hlrep Represents.leaf, rfl, rfl, fun j _ => rfl⟩
    | node hbn hblrep hbrrep =>
      rename_i b db bl br tbl tbr
      have hra : (h.nodes a).right = some b := by rw [hn]
      have heqD : doubleLeft h a cbl cbr
          = singleLeft ((singleRight h b cbr).1.setRight a
              (some (singleRight h b cbr).2)) a cbl := by
        simp [doubleLeft, hra]
      rw [heqD]
      have htr : Represents h (some b) (ITree.node b db tbl tbr) :=
        Represents.node hbn hblrep hbrrep
      have hnd1 : (idList tl ++ a :: idList (ITree.node b db tbl tbr)).Nodup := hnd
      obtain ⟨hndtl, hnda, hdisj⟩ := List.nodup_append.1 hnd1
      obtain ⟨hamem, hndtr⟩ := List.nodup_cons.1 hnda
      obtain ⟨tr', hrep1, hio1, hid1, hfr1⟩ := singleRight_represents hcr htr hndtr
      have haeq : (singleRight h b cbr).1.nodes a = h.nodes a := hfr1 a hamem
      have hH2a : ((singleRight h b cbr).1.setRight a
          (some (singleRight h b cbr).2)).nodes a
          = ⟨d, l, some (singleRight h b cbr).2⟩ := by
        rw [Heap.setRight_read_same, haeq, hn]
      have hrep2 : Represents ((singleRight h b cbr).1.setRight a
          (some (singleRight h b cbr).2)) (some a) (ITree.node a d tl tr') := by
        refine Represents.node hH2a ?_ ?_
        · refine represents_frame hlrep fun i hi => ?_
          have hia : i ≠ a := fun he =>
            hdisj hi (by rw [he]; exact List.mem_cons_self a _)
          have hitr : i ∉ idList (ITree.node b db tbl tbr) := fun hm =>
            hdisj hi (List.mem_cons_of_mem a hm)
          rw [Heap.setRight_read_other _ _ hia]
          exact hfr1 i hitr
        · refine represents_frame hrep1 fun i hi => ?_
          have hitr : i ∈ idList (ITree.node b db tbl tbr) := hid1 ▸ hi
          have hia : i ≠ a := fun he => hamem (he ▸ hitr)
          rw [Heap.setRight_read_other _ _ hia]
      have hnd2 : (idList (ITree.node a d tl tr')).Nodup := by
        have hlist : idList (ITree.node a d tl tr')
            = idList tl ++ a :: idList (ITree.node b db tbl tbr) := by
          show idList tl ++ a :: idList tr' = _
          rw [hid1]
        rw [hlist]
        exact hnd1
      obtain ⟨t2, hrep3, hio3, hid3, hfr3⟩ := singleLeft_represents hcl hrep2 hnd2
      refine ⟨t2, hrep3, ?_, ?_, ?_⟩
      · rw [hio3]
        show inorderData tl ++ d :: inorderData tr'
          = inorderData tl ++ d :: inorderData (ITree.node b db tbl tbr)
        rw [hio1]
      · rw [hid3]
        show idList tl ++ a :: idList tr'
          = idList tl ++ a :: idList (ITree.node b db tbl tbr)
        rw [hid1]
      · intro j hj
        have hj' : j ∉ idList tl ++ a :: idList (ITree.node b db tbl tbr) := hj
        rw [List.mem_append, List.mem_cons] at hj'
        push_neg at hj'
        obtain ⟨hjtl, hja, hjtr⟩ := hj'
        have hj2 : j ∉ idList (ITree.node a d tl tr') := by
          show j ∉ idList tl ++ a :: idList tr'
          rw [List.mem_append, List.mem_cons]
          push_neg
          exact ⟨hjtl, hja, hid1 ▸ hjtr⟩
        rw [hfr3 j hj2, Heap.setRight_read_other _ _ hja]
        exact hfr1 j hjtr

/-- A double right rotation with pure (or absent) callbacks preserves the
represented subtree's in-order identity and payload lists and touches no node
outside the subtree. -/
theorem doubleRight_represents {T : Type} {h : Heap T} {c : Nat} {t : ITree T}
    {cbl cbr : Option (Cb T)} (hcl : CbPure cbl) (hcr : CbPure cbr)
    (ht : Represents h (some c) t) (hnd : (idList t).Nodup) :
    ∃ t', Represents (doubleRight h c cbl cbr).1 (some (doubleRight h c cbl cbr).2) t' ∧
      inorderData t' = inorderData t ∧ idList t' = idList t ∧
      ∀ j, j ∉ idList t → ((doubleRight h c cbl cbr).1).nodes j = h.nodes j := by
  cases ht with
  | node hn hlrep hrrep =>
    rename_i d l r tl tr
    cases hlrep with
    | leaf =>
      have heq : doubleRight h c cbl cbr = (h, c) := by simp [doubleRight, hn]
      rw [heq]
      exact ⟨ITree.node c d ITree.leaf tr,
        Represents.node hn Represents.leaf hrrep, rfl, rfl, fun j _ => rfl⟩
    | node hbn hblrep hbrrep =>
      rename_i b db bl br tbl tbr
      have hlc : (h.nodes c).left = some b := by rw [hn]
      have heqD : doubleRight h c cbl cbr
          = singleRight ((singleLeft h b cbl).1.setLeft c
              (some (singleLeft h b cbl).2)) c cbr := by
        simp [doubleRight, hlc]
      rw [heqD]
      have htl : Represents h (some b) (ITree.node b db tbl tbr) :=
        Represents.node hbn hblrep hbrrep
      have hnd1 : (idList (ITree.node b db tbl tbr) ++ c :: idList tr).Nodup := hnd
      obtain ⟨hndtln, hndc, hdisj⟩ := List.nodup_append.1 hnd1
      obtain ⟨hcmem, hndtr⟩ := List.nodup_cons.1 hndc
      have hcnotl : c ∉ idList (ITree.node b db tbl tbr) := fun hm =>
        hdisj hm (List.mem_cons_self c _)
      obtain ⟨tl', hrep1, hio1, hid1, hfr1⟩ := singleLeft_represents hcl htl hndtln
      have hceq : (singleLeft h b cbl).1.nodes c = h.nodes c := hfr1 c hcnotl
      have hH2c : ((singleLeft h b cbl).1.setLeft c
          (some (singleLeft h b cbl).2)).nodes c
          = ⟨d, some (singleLeft h b cbl).2, r⟩ := by
        rw [Heap.setLeft_read_same, hceq, hn]
      have hrep2 : Represents ((singleLeft h b cbl).1.setLeft c
          (some (singleLeft h b cbl).2)) (some c) (ITree.node c d tl' tr) := by
        refine Represents.node hH2c ?_ ?_
        · refine represents_frame hrep1 fun i hi => ?_
          have hitl : i ∈ idList (ITree.node b db tbl tbr) := hid1 ▸ hi
          have hic : i ≠ c := fun he => hcnotl (he ▸ hitl)
          rw [Heap.setLeft_read_other _ _ hic]
        · refine represents_frame hrrep fun i hi => ?_
          have hic : i ≠ c := fun he => hcmem (he ▸ hi)
          have hitl : i ∉ idList (ITree.node b db tbl tbr) := fun hm =>
            hdisj hm (List.mem_cons_of_mem c hi)
          rw [Heap.setLeft_read_other _ _ hic]
          exact hfr1 i hitl
      have hnd2 : (idList (ITree.node c d tl' tr)).Nodup := by
        have hlist : idList (ITree.node c d tl' tr)
            = idList (ITree.node b db tbl tbr) ++ c :: idList tr := by
          show idList tl' ++ c :: idList tr = _
          rw [hid1]
        rw [hlist]
        exact hnd1
      obtain ⟨t2, hrep3, hio3, hid3, hfr3⟩ := singleRight_represents hcr hrep2 hnd2
      refine ⟨t2, hrep3, ?_, ?_, ?_⟩
      · rw [hio3]
        show inorderData tl' ++ d :: inorderData tr
          = inorderData (ITree.node b db tbl tbr) ++ d :: inorderData tr
        rw [hio1]
      · rw [hid3]
        show idList tl' ++ c :: idList tr
          = idList (ITree.node b db tbl tbr) ++ c :: idList tr
        rw [hid1]
      · intro j hj
        have hj' : j ∉ idList (ITree.node b db tbl tbr) ++ c :: idList tr := hj
        rw [List.mem_append, List.mem_cons] at hj'
        push_neg at hj'
        obtain ⟨hjtl, hjc, hjtr⟩ := hj'
        have hj2 : j ∉ idList (ITree.node c d tl' tr) := by
          show j ∉ idList tl' ++ c :: idList tr
          rw [List.mem_append, List.mem_cons]
          push_neg
          exact ⟨hid1 ▸ hjtl, hjc, hjtr⟩
        rw [hfr3 j hj2, Heap.setLeft_read_other _ _ hjc]
        exact hfr1 j hjtl

/-- C6: for every represented subtree (finite, acyclic, duplicate-free — the
data-model invariant) and every one of the four rotations with absent or pure
callbacks, the result heap represents at the returned root a subtree whose
in-order payload sequence equals that of the input subtree. -/
theorem c6_rotations_preserve_inorder {T : Type} (h : Heap T) (n : Nat)
    (t : ITree T) {cbl cbr : Option (Cb T)} (hcl : CbPure cbl) (hcr : CbPure cbr)
    (ht : Represents h (some n) t) (hnd : (idList t).Nodup) :
    (∃ t1, Represents (singleLeft h n cbl).1 (some (singleLeft h n cbl).2) t1 ∧
      inorderData t1 = inorderData t) ∧
    (∃ t2, Represents (singleRight h n cbr).1 (some (singleRight h n cbr).2) t2 ∧
      inorderData t2 = inorderData t) ∧
    (∃ t3, Represents (doubleLeft h n cbl cbr).1 (some (doubleLeft h n cbl cbr).2) t3 ∧
      inorderData t3 = inorderData t) ∧
    (∃ t4, Represents (doubleRight h n cbl cbr).1 (some (doubleRight h n cbl cbr).2) t4 ∧
      inorderData t4 = inorderData t) := by
  obtain ⟨t1, hr1, hio1, -, -⟩ := singleLeft_represents hcl ht hnd
  obtain ⟨t2, hr2, hio2, -, -⟩ := singleRight_represents hcr ht hnd
  obtain ⟨t3, hr3, hio3, -, -⟩ := doubleLeft_represents hcl hcr ht hnd
  obtain ⟨t4, hr4, hio4, -, -⟩ := doubleRight_represents hcl hcr ht hnd
  exact ⟨⟨t1, hr1, hio1⟩, ⟨t2, hr2, hio2⟩, ⟨t3, hr3, hio3⟩, ⟨t4, hr4, hio4⟩⟩

/-- Witness for C6 on the `rightMiddleHeavy` fixture, whose in-order payload
sequence is `a`, `b`, `c`: all four rotations preserve it. -/
theorem c6_witness :
    (∃ t1, Represents (singleLeft rightMiddleHeavy 0 none).1
        (some (singleLeft rightMiddleHeavy 0 none).2) t1 ∧
      inorderData t1 = inorderData (ITree.node 0 'a' ITree.leaf
        (ITree.node 1 'c' (ITree.node 2 'b' ITree.leaf ITree.leaf) ITree.leaf))) ∧
    (∃ t2, Represents (singleRight rightMiddleHeavy 0 none).1
        (some (singleRight rightMiddleHeavy 0 none).2) t2 ∧
      inorderData t2 = inorderData (ITree.node 0 'a' ITree.leaf
        (ITree.node 1 'c' (ITree.node 2 'b' ITree.leaf ITree.leaf) ITree.leaf))) ∧
    (∃ t3, Represents (doubleLeft rightMiddleHeavy 0 none none).1
        (some (doubleLeft rightMiddleHeavy 0 none none).2) t3 ∧
      inorderData t3 = inorderData (ITree.node 0 'a' ITree.leaf
        (ITree.node 1 'c' (ITree.node 2 'b' ITree.leaf ITree.leaf) ITree.leaf))) ∧
    (∃ t4, Represents (doubleRight rightMiddleHeavy 0 none none).1
        (some (doubleRight rightMiddleHeavy 0 none none).2) t4 ∧
      inorderData t4 = inorderData (ITree.node 0 'a' ITree.leaf
        (ITree.node 1 'c' (ITree.node 2 'b' ITree.leaf ITree.leaf) ITree.leaf))) :=
  c6_rotations_preserve_inorder rightMiddleHeavy 0
    (ITree.node 0 'a' ITree.leaf
      (ITree.node 1 'c' (ITree.node 2 'b' ITree.leaf ITree.leaf) ITree.leaf))
    cbPure_none cbPure_none
    (Represents.node rfl Represents.leaf
      (Represents.node rfl
        (Represents.node rfl Represents.leaf Represents.leaf) Represents.leaf))
    (by decide)

/-- Full correctness of `deepCopy` on a represented subtree: with enough fuel
and a fresh counter above every source identity, the copy succeeds, leaves
every pre-existing node untouched, and produces a view with the same
identity-erased shape and payloads whose identities all lie in the newly
allocated region. -/
theorem deepCopy_spec {T : Type} (t : ITree T) :
    ∀ (h : Heap T) (root : Option Nat) (fuel fresh : Nat),
    Represents h root t → (∀ i ∈ idList t, i < fresh) → heightI t ≤ fuel →
    ∃ h' root' fresh', deepCopy h fuel root fresh = some (h', root', fresh') ∧
      fresh ≤ fresh' ∧
      (∀ j, j < fresh → h'.nodes j = h.nodes j) ∧
      ∃ t', Represents h' root' t' ∧ dataTree t' = dataTree t ∧
        ∀ i ∈ idList t', fresh ≤ i ∧ i < fresh' := by
  induction t with
  | leaf =>
    intro h root fuel fresh ht hb hf
    cases ht
    exact ⟨h, none, fresh, by simp [deepCopy], le_refl fresh, fun j _ => rfl,
      ITree.leaf, Represents.leaf, rfl, fun i hi => absurd hi (List.not_mem_nil i)⟩
  | node i d tl tr ihl ihr =>
    intro h root fuel fresh ht hb hf
    cases ht with
    | node hn hlrep hrrep =>
      rename_i l r
      have hheq : heightI (ITree.node i d tl tr)
          = max (heightI tl) (heightI tr) + 1 := rfl
      cases fuel with
      | zero =>
        rw [hheq] at hf
        exact absurd hf (Nat.not_succ_le_zero _)
      | succ m =>
        rw [hheq] at hf
        have hmax : max (heightI tl) (heightI tr) ≤ m := Nat.succ_le_succ_iff.mp hf
        have hbtl : ∀ j ∈ idList tl, j < fresh := fun j hj =>
          hb j (by simp [idList, hj])
        have hbtr : ∀ j ∈ idList tr, j < fresh := fun j hj =>
          hb j (by simp [idList, hj])
        obtain ⟨h1, lc, f1, heq1, hle1, hagree1, tl', hrepl, hdtl, hidl⟩ :=
          ihl h l m fresh hlrep hbtl (le_trans (le_max_left _ _) hmax)
        have hrrep1 : Represents h1 r tr :=
          represents_frame hrrep fun j hj => hagree1 j (hbtr j hj)
        have hbtr1 : ∀ j ∈ idList tr, j < f1 := fun j hj =>
          lt_of_lt_of_le (hbtr j hj) hle1
        obtain ⟨h2, rc, f2, heq2, hle2, hagree2, tr', hrepr, hdtr, hidr⟩ :=
          ihr h1 r m f1 hrrep1 hbtr1 (le_trans (le_max_right _ _) hmax)
        have heqD : deepCopy h (m + 1) (some i) fresh
            = some (h2.update f2 ⟨d, lc, rc⟩, some f2, f2 + 1) := by
          simp [deepCopy, hn, heq1, heq2]
        refine ⟨h2.update f2 ⟨d, lc, rc⟩, some f2, f2 + 1, heqD, by omega,
          fun j hj => ?_, ITree.node f2 d tl' tr', ?_, ?_, ?_⟩
        · rw [Heap.update_read_other _ _ (by omega : j ≠ f2),
            hagree2 j (by omega), hagree1 j hj]
        · refine Represents.node (Heap.update_read_same _ _ _) ?_ ?_
          · refine represents_frame hrepl fun j hj => ?_
            have hj1 := (hidl j hj).2
            rw [Heap.update_read_other _ _ (by omega : j ≠ f2)]
            exact hagree2 j hj1
          · refine represents_frame hrepr fun j hj => ?_
            have hj2 := (hidr j hj).2
            rw [Heap.update_read_other _ _ (by omega : j ≠ f2)]
        · simp [dataTree, hdtl, hdtr]
        · intro j hj
          have hj' : j ∈ idList tl' ∨ j = f2 ∨ j ∈ idList tr' := by
            simpa [idList] using hj
          rcases hj' with hj1 | rfl | hj1
          · have := hidl j hj1; omega
          · omega
          · have := hidr j hj1; omega

/-- C7: `deepCopy` of an absent root is absent with the heap untouched; on a
represented finite subtree whose identities lie below the fresh counter it
succeeds and returns a copy whose view has the identical identity-erased
shape and payloads (structural identity, payloads shared rather than
cloned), allocates only identities at or above the counter (every copy node
is freshly constructed, aliasing no source node), leaves every source node
unchanged, and overwriting any copy-region node leaves the source's
representation intact while overwriting any source-region node leaves the
copy's representation intact — the two trees are fully independent. -/
theorem c7_deepCopy_independent_clone {T : Type} (h : Heap T) (r : Nat)
    (t : ITree T) (fuel fresh : Nat) (ht : Represents h (some r) t)
    (hb : ∀ i ∈ idList t, i < fresh) (hf : heightI t ≤ fuel) :
    (∀ (g : Heap T) (fl fr : Nat), deepCopy g fl none fr = some (g, none, fr)) ∧
    ∃ h' root' fresh', deepCopy h fuel (some r) fresh = some (h', root', fresh') ∧
      (∀ j, j < fresh → h'.nodes j = h.nodes j) ∧
      Represents h' (some r) t ∧
      ∃ t', Represents h' root' t' ∧ dataTree t' = dataTree t ∧
        (∀ i ∈ idList t', fresh ≤ i) ∧
        (∀ (v : RTNode T) (j : Nat), fresh ≤ j →
          Represents (h'.update j v) (some r) t) ∧
        (∀ (v : RTNode T) (j : Nat), j < fresh →
          Represents (h'.update j v) root' t') := by
  obtain ⟨h', root', fresh', heq, hle, hagree, t', hrep, hdata, hids⟩ :=
    deepCopy_spec t h (some r) fuel fresh ht hb hf
  have hsrc : Represents h' (some r) t :=
    represents_frame ht fun i hi => hagree i (hb i hi)
  refine ⟨fun g fl fr => by simp [deepCopy], h', root', fresh', heq,
    hagree, hsrc, t', hrep, hdata, fun i hi => (hids i hi).1, ?_, ?_⟩
  · intro v j hj
    refine represents_frame hsrc fun i hi => ?_
    have := hb i hi
    rw [Heap.update_read_other _ _ (by omega : i ≠ j)]
  · intro v j hj
    refine represents_frame hrep fun i hi => ?_
    have := (hids i hi).1
    rw [Heap.update_read_other _ _ (by omega : i ≠ j)]

/-- Witness for C7 on the `rightHeavy` fixture: copying the three-node chain
rooted at identity 0 with fuel 3 and fresh counter 3. -/
theorem c7_witness :
    (∀ (g : Heap Char) (fl fr : Nat), deepCopy g fl none fr = some (g, none, fr)) ∧
    ∃ h' root' fresh', deepCopy rightHeavy 3 (some 0) 3 = some (h', root', fresh') ∧
      (∀ j, j < 3 → h'.nodes j = rightHeavy.nodes j) ∧
      Represents h' (some 0)
        (ITree.node 0 'a' ITree.leaf
          (ITree.node 1 'b' ITree.leaf (ITree.node 2 'c' ITree.leaf ITree.leaf))) ∧
      ∃ t', Represents h' root' t' ∧
        dataTree t' = dataTree
          (ITree.node 0 'a' ITree.leaf
            (ITree.node 1 'b' ITree.leaf (ITree.node 2 'c' ITree.leaf ITree.leaf))) ∧
        (∀ i ∈ idList t', 3 ≤ i) ∧
        (∀ (v : RTNode Char) (j : Nat), 3 ≤ j →
          Represents (h'.update j v) (some 0)
            (ITree.node 0 'a' ITree.leaf
              (ITree.node 1 'b' ITree.leaf (ITree.node 2 'c' ITree.leaf ITree.leaf)))) ∧
        (∀ (v : RTNode Char) (j : Nat), j < 3 →
          Represents (h'.update j v) root' t') :=
  c7_deepCopy_independent_clone rightHeavy 0
    (ITree.node 0 'a' ITree.leaf
      (ITree.node 1 'b' ITree.leaf (ITree.node 2 'c' ITree.leaf ITree.leaf)))
    3 3
    (Represents.node rfl Represents.leaf
      (Represents.node rfl Represents.leaf
        (Represents.node rfl Represents.leaf Represents.leaf)))
    (by decide) (by decide)

end Balanced
